import Mathlib

/-!
Verification of the learning-companion core: the semantic-deduplication
knowledge base (skills/learning_companion/smart_knowledge_base.py) and the
forgetting-curve review scheduler with statistics
(skills/learning_companion/learning_records.py).

The Python code is shallowly embedded:
* Python `set[str]` becomes `Finset String`; `dict` (insertion ordered)
  becomes an association list; `list` becomes `List`.
* Python floats are modelled by `ℚ`: every score in the code is an exact
  integer or a ratio of small naturals, and the similarity threshold 0.6
  is modelled as the rational 3/5.
* `datetime` values are modelled by a calendar-day number (the comparison
  `a.date() <= b.date()` only looks at the day) together with an opaque
  time-of-day payload; `timedelta(days = n)` adds `n` to the day number.
* The two md5-derived identifiers (8-hex-digit topic id, 16-hex-digit
  question digest) are opaque deterministic functions of the input text;
  the embedding abstracts them as an arbitrary pair of functions, since no
  verified behaviour depends on any property of md5 itself.
* `str.lower()` is dropped: Unicode lowercasing is the identity on CJK
  ideographs (U+4E00..U+9FFF, a caseless script) and never maps a
  character of another script into that block, and the extractor filters
  to that block immediately afterwards, so the filtered character list is
  unchanged.
* Python's `list.sort` (a stable sort) is modelled by `List.insertionSort`,
  which is stable with the same comparator discipline.
* File persistence (`_save_kb`, `_save_records`) does not change the
  in-memory state and is omitted.
-/

namespace AISkills

/-! ### Keyword extraction (SmartKnowledgeBase.extract_keywords) -/

/-- The fixed stop-word list of `extract_keywords`. -/
def stopwords : List String :=
  ["的", "是", "在", "有", "和", "了", "与", "个", "对", "为",
   "这", "那", "什么", "如何", "怎么", "哪些", "哪个", "吗", "呢", "地方"]

/-- The character-range filter: CJK unified ideographs U+4E00..U+9FFF
(the Python test is the chained comparison on the character value). -/
def isCJK (c : Char) : Bool :=
  decide (0x4e00 ≤ c.toNat) && decide (c.toNat ≤ 0x9fff)

/-- The filtered character sequence the n-grams are built over
(`chars = [c for c in text_lower if CJK range test]`). -/
def cjkChars (text : String) : List Char :=
  text.toList.filter isCJK

/-- 1-grams: single characters that are not stop-words. -/
def gram1 (chars : List Char) : List String :=
  (chars.filter (fun c => !(stopwords.contains (String.mk [c])))).map
    (fun c => String.mk [c])

/-- 2-grams: `chars[i] + chars[i+1]` for every adjacent pair.  No stop-word
filtering is applied here (mirroring the loop in the source). -/
def gram2 : List Char → List String
  | a :: b :: rest => String.mk [a, b] :: gram2 (b :: rest)
  | _ => []

/-- 3-grams: `chars[i] + chars[i+1] + chars[i+2]`.  No stop-word filtering
is applied here either. -/
def gram3 : List Char → List String
  | a :: b :: c :: rest => String.mk [a, b, c] :: gram3 (b :: c :: rest)
  | _ => []

/-- `SmartKnowledgeBase.extract_keywords`: the set of all 1-, 2- and
3-grams collected over the CJK-filtered character sequence. -/
def extractKeywords (text : String) : Finset String :=
  (gram1 (cjkChars text) ++ gram2 (cjkChars text) ++ gram3 (cjkChars text)).toFinset

/-! ### Similarity (SmartKnowledgeBase.calculate_similarity) -/

/-- `SmartKnowledgeBase.calculate_similarity`: the Jaccard index, with the
guard returning 0.0 whenever either input set is empty, and the inner
`if union else 0.0` guard kept from the source. -/
def calculateSimilarity (keywords1 keywords2 : Finset String) : ℚ :=
  if keywords1 = ∅ ∨ keywords2 = ∅ then 0
  else if keywords1 ∪ keywords2 = ∅ then 0
  else ((keywords1 ∩ keywords2).card : ℚ) / ((keywords1 ∪ keywords2).card : ℚ)

/-! ### Mastery classifier (LearningRecords._calculate_mastery) -/

/-- `LearningRecords._calculate_mastery`: the descending chain of boundary
tests.  Scores are modelled as rationals so the function is total over all
numeric inputs, as the chained `elif`s are in Python. -/
def calculateMastery (score : ℚ) : String :=
  if 9 ≤ score then "excellent"
  else if 7 ≤ score then "good"
  else if 5 ≤ score then "fair"
  else "poor"

/-! ### Theorems for the similarity scorer and the mastery classifier -/

/-- C8: the similarity score is within [0,1], symmetric, exactly 0 when
either input set is empty, and exactly 1 on any non-empty set compared
with itself. -/
theorem calculateSimilarity_bounds_symm (A B : Finset String) :
    0 ≤ calculateSimilarity A B ∧ calculateSimilarity A B ≤ 1 ∧
    calculateSimilarity A B = calculateSimilarity B A ∧
    calculateSimilarity ∅ B = 0 ∧ calculateSimilarity A ∅ = 0 ∧
    calculateSimilarity A A = (if A = ∅ then 0 else 1) := by
  refine ⟨?_, ?_, ?_, ?_, ?_, ?_⟩
  · unfold calculateSimilarity
    split_ifs with h1 h2
    · exact le_refl 0
    · exact le_refl 0
    · positivity
  · unfold calculateSimilarity
    split_ifs with h1 h2
    · exact zero_le_one
    · exact zero_le_one
    · rw [div_le_one]
      · exact_mod_cast Finset.card_le_card Finset.inter_subset_union
      · have hA : A ≠ ∅ := fun h => h1 (Or.inl h)
        have : (A ∪ B).Nonempty := by
          rcases Finset.nonempty_iff_ne_empty.mpr hA with ⟨x, hx⟩
          exact ⟨x, Finset.mem_union_left _ hx⟩
        exact_mod_cast Finset.card_pos.mpr this
  · simp only [calculateSimilarity, Finset.union_comm A B, Finset.inter_comm A B, or_comm]
  · simp [calculateSimilarity]
  · simp [calculateSimilarity]
  · by_cases hA : A = ∅
    · simp [calculateSimilarity, hA]
    · have hpos : 0 < A.card := Finset.card_pos.mpr (Finset.nonempty_iff_ne_empty.mpr hA)
      have hcard : (A.card : ℚ) ≠ 0 := by exact_mod_cast hpos.ne'
      simp only [calculateSimilarity, hA, or_self, if_false, Finset.union_self,
        Finset.inter_self, if_neg hA]
      exact div_self hcard

/-- C5: the mastery classifier is total over ℚ and maps a score to
excellent iff it is at least 9, to good iff it is in [7,9), to fair iff it
is in [5,7), and to poor iff it is below 5; each boundary goes to the
higher tier. -/
theorem calculateMastery_tiers (score : ℚ) :
    (calculateMastery score = "excellent" ↔ 9 ≤ score) ∧
    (calculateMastery score = "good" ↔ 7 ≤ score ∧ score < 9) ∧
    (calculateMastery score = "fair" ↔ 5 ≤ score ∧ score < 7) ∧
    (calculateMastery score = "poor" ↔ score < 5) := by
  unfold calculateMastery
  split_ifs with h1 h2 h3 <;>
    refine ⟨?_, ?_, ?_, ?_⟩ <;>
    simp_all <;>
    intros <;>
    first | rfl | linarith

/-! ### Knowledge-base data model (SmartKnowledgeBase) -/

/-- The two md5-derived identifiers used by the knowledge base:
`topicId` models `hashlib.md5(topic.encode()).hexdigest()[:8]` and
`qDigest` models `hashlib.md5(question_zh.encode()).hexdigest()[:16]`.
They are abstracted as arbitrary deterministic functions because no
verified behaviour depends on any property of md5. -/
structure HashFns where
  topicId : String → String
  qDigest : String → String

/-- One stored question record (the `qa_entry` dictionary). -/
structure QA where
  question_hash : String
  question_zh : String
  question_en : String
  answer_zh : String
  answer_en : String
  difficulty : String
  tags : List String
  added_at : String
  review_count : Nat
  last_reviewed : Option String
deriving DecidableEq, Repr

/-- One topic bucket (`knowledge_base["topics"][topic_id]`). -/
structure TopicData where
  topic_name : String
  created_at : String
  questions : List QA
deriving DecidableEq, Repr

/-- The in-memory knowledge base.  The Python `topics` dict keeps insertion
order, so it is modelled as an association list. -/
structure KB where
  topics : List (String × TopicData)
  metadata_created_at : String
deriving DecidableEq, Repr

/-- The fresh state `_load_kb` produces when no file exists yet. -/
def initialKB (created : String) : KB := ⟨[], created⟩

/-- Dict lookup `knowledge_base["topics"].get(topic_id)`. -/
def lookupTopic : List (String × TopicData) → String → Option TopicData
  | [], _ => none
  | (k, v) :: rest, tid => if k = tid then some v else lookupTopic rest tid

/-- Dict value replacement at a key (keys are unique by construction, so
replacing every occurrence coincides with Python's in-place update). -/
def setTopic : List (String × TopicData) → String → TopicData → List (String × TopicData)
  | [], _, _ => []
  | (k, v) :: rest, tid, td =>
      if k = tid then (k, td) :: setTopic rest tid td
      else (k, v) :: setTopic rest tid td

/-- One element of the list returned by `find_similar_questions`. -/
structure SimilarEntry where
  question : String
  similarity : ℚ
  hash : String
deriving DecidableEq, Repr

/-- The comparator of `similar_questions.sort(key=..., reverse=True)`:
descending similarity. -/
def simRel (a b : SimilarEntry) : Prop := b.similarity ≤ a.similarity

instance : DecidableRel simRel := fun a b =>
  inferInstanceAs (Decidable (b.similarity ≤ a.similarity))

instance : IsTotal SimilarEntry simRel := ⟨fun a b => le_total b.similarity a.similarity⟩

instance : IsTrans SimilarEntry simRel := ⟨fun _ _ _ h1 h2 => le_trans h2 h1⟩

/-- `SmartKnowledgeBase.find_similar_questions`.  The collection loop is a
map-and-filter over the bucket in insertion order; Python's stable
`list.sort` with `reverse=True` is modelled by the stable
`List.insertionSort` with the descending comparator. -/
def findSimilarQuestions (hf : HashFns) (kb : KB) (topic newQuestion : String)
    (threshold : ℚ) : List SimilarEntry :=
  match lookupTopic kb.topics (hf.topicId topic) with
  | none => []
  | some td =>
      let newKeywords := extractKeywords newQuestion
      List.insertionSort simRel
        ((td.questions.map (fun qa =>
            { question := qa.question_zh
              similarity := calculateSimilarity newKeywords (extractKeywords qa.question_zh)
              hash := qa.question_hash : SimilarEntry })).filter
          (fun e => decide (threshold ≤ e.similarity)))

/-- The new `qa_entry` dictionary built on the `ADDED` path. -/
def mkEntry (question_hash question_zh question_en answer_zh answer_en difficulty : String)
    (tags : List String) (now : String) : QA :=
  ⟨question_hash, question_zh, question_en, answer_zh, answer_en, difficulty, tags, now, 0, none⟩

/-- `knowledge_base["topics"][topic_id]["questions"].append(qa_entry)`. -/
def pushEntry (kb : KB) (tid : String) (td : TopicData) (qa : QA) : KB :=
  { kb with topics := setTopic kb.topics tid { td with questions := td.questions ++ [qa] } }

/-- The `(status, similar_questions_list)` pair returned by `add_question`,
bundled with the knowledge-base state after the call. -/
structure AddResult where
  status : String
  similar : Option (List SimilarEntry)
  state : KB
deriving Repr

/-- `SmartKnowledgeBase.add_question`.  The lazily-initialised topic bucket
is materialised first (`kb1`), then the exact-digest scan, then — only
without `force` — the similarity search with threshold 3/5, and finally the
append.  The two `ADDED`-producing fall-throughs of the Python code are
merged into the single final branch. -/
def addQuestion (hf : HashFns) (kb : KB) (topic question_zh question_en answer_zh answer_en : String)
    (difficulty : String) (tags : List String) (now : String) (force : Bool) : AddResult :=
  let topic_id := hf.topicId topic
  let question_hash := hf.qDigest question_zh
  let td : TopicData :=
    match lookupTopic kb.topics topic_id with
    | some t => t
    | none => ⟨topic, now, []⟩
  let kb1 : KB :=
    match lookupTopic kb.topics topic_id with
    | some _ => kb
    | none => { kb with topics := kb.topics ++ [(topic_id, ⟨topic, now, []⟩)] }
  if td.questions.any (fun qa => qa.question_hash == question_hash) then
    ⟨"EXACT_DUPLICATE", none, kb1⟩
  else if force = false ∧ findSimilarQuestions hf kb1 topic question_zh (3/5) ≠ [] then
    ⟨"SIMILAR_FOUND", some (findSimilarQuestions hf kb1 topic question_zh (3/5)), kb1⟩
  else
    ⟨"ADDED", none,
      pushEntry kb1 topic_id td
        (mkEntry question_hash question_zh question_en answer_zh answer_en difficulty tags now)⟩

/-! ### C1: exact duplicates -/

/-- C1: if a stored record under the topic already has the incoming
question's digest, `add_question` returns `EXACT_DUPLICATE` with no
payload and an unchanged state, for either value of `force`. -/
theorem addQuestion_exact_duplicate
    (hf : HashFns) (kb : KB) (topic qzh qen azh aen diff : String)
    (tags : List String) (now : String) (force : Bool) (b : TopicData)
    (hb : lookupTopic kb.topics (hf.topicId topic) = some b)
    (hdup : ∃ qa ∈ b.questions, qa.question_hash = hf.qDigest qzh) :
    (addQuestion hf kb topic qzh qen azh aen diff tags now force).status = "EXACT_DUPLICATE" ∧
    (addQuestion hf kb topic qzh qen azh aen diff tags now force).similar = none ∧
    (addQuestion hf kb topic qzh qen azh aen diff tags now force).state = kb := by
  have hany : b.questions.any (fun qa => qa.question_hash == hf.qDigest qzh) = true := by
    rw [List.any_eq_true]
    obtain ⟨qa, hmem, heq⟩ := hdup
    exact ⟨qa, hmem, by rw [heq, beq_self_eq_true]⟩
  simp [addQuestion, hb, hany]

/-- Concrete identity-digest setup used by several witnesses. -/
def wHF : HashFns := ⟨fun s => s, fun s => s⟩

/-- A concrete stored record for the witnesses. -/
def wQA : QA := ⟨"机器学习", "机器学习", "ML", "答", "ans", "medium", [], "t0", 0, none⟩

/-- A concrete one-topic knowledge base for the witnesses. -/
def wKB : KB := ⟨[("主题", ⟨"主题", "t0", [wQA]⟩)], "t0"⟩

/-- Witness for C1 at a concrete duplicate submission with `force=true`. -/
theorem addQuestion_exact_duplicate_witness :
    (lookupTopic wKB.topics (wHF.topicId "主题") = some ⟨"主题", "t0", [wQA]⟩ ∧
      ∃ qa ∈ [wQA], qa.question_hash = wHF.qDigest "机器学习") ∧
    ((addQuestion wHF wKB "主题" "机器学习" "ML" "答" "ans" "medium" [] "t1" true).status =
        "EXACT_DUPLICATE" ∧
      (addQuestion wHF wKB "主题" "机器学习" "ML" "答" "ans" "medium" [] "t1" true).similar = none ∧
      (addQuestion wHF wKB "主题" "机器学习" "ML" "答" "ans" "medium" [] "t1" true).state = wKB) :=
  ⟨⟨by decide, wQA, by decide, by decide⟩,
    addQuestion_exact_duplicate wHF wKB "主题" "机器学习" "ML" "答" "ans" "medium" [] "t1" true
      ⟨"主题", "t0", [wQA]⟩ (by decide) ⟨wQA, by decide, by decide⟩⟩

/-! ### C9: per-topic digest uniqueness invariant -/

/-- The arguments of one `add_question` call. -/
structure AddArgs where
  topic : String
  question_zh : String
  question_en : String
  answer_zh : String
  answer_en : String
  difficulty : String
  tags : List String
  now : String
  force : Bool

/-- The state transformer of one `add_question` call. -/
def stepState (hf : HashFns) (kb : KB) (a : AddArgs) : KB :=
  (addQuestion hf kb a.topic a.question_zh a.question_en a.answer_zh a.answer_en
    a.difficulty a.tags a.now a.force).state

/-- The invariant: within every topic bucket the stored content digests
are pairwise distinct. -/
def hashesNodup (kb : KB) : Prop :=
  ∀ p ∈ kb.topics, (p.2.questions.map QA.question_hash).Nodup

theorem lookupTopic_mem {l : List (String × TopicData)} {tid : String} {v : TopicData}
    (h : lookupTopic l tid = some v) : (tid, v) ∈ l := by
  induction l with
  | nil => simp [lookupTopic] at h
  | cons p rest ih =>
      obtain ⟨k, w⟩ := p
      by_cases hk : k = tid
      · subst hk
        simp [lookupTopic] at h
        subst h
        exact List.mem_cons_self _ _
      · rw [lookupTopic, if_neg hk] at h
        exact List.mem_cons_of_mem _ (ih h)

theorem mem_setTopic {l : List (String × TopicData)} {tid : String} {td : TopicData}
    {p : String × TopicData} (h : p ∈ setTopic l tid td) : p.2 = td ∨ p ∈ l := by
  induction l with
  | nil => simp [setTopic] at h
  | cons q rest ih =>
      obtain ⟨k, w⟩ := q
      rw [setTopic] at h
      by_cases hk : k = tid
      · rw [if_pos hk, List.mem_cons] at h
        rcases h with h | h
        · exact Or.inl (by rw [h])
        · rcases ih h with h' | h'
          · exact Or.inl h'
          · exact Or.inr (List.mem_cons_of_mem _ h')
      · rw [if_neg hk, List.mem_cons] at h
        rcases h with h | h
        · exact Or.inr (by rw [h]; exact List.mem_cons_self _ _)
        · rcases ih h with h' | h'
          · exact Or.inl h'
          · exact Or.inr (List.mem_cons_of_mem _ h')

theorem hashesNodup_step (hf : HashFns) (kb : KB) (a : AddArgs)
    (hkb : hashesNodup kb) : hashesNodup (stepState hf kb a) := by
  classical
  unfold stepState addQuestion
  cases hlk : lookupTopic kb.topics (hf.topicId a.topic) with
  | some t =>
      simp only [hlk]
      by_cases hany :
          (t.questions.any (fun qa => qa.question_hash == hf.qDigest a.question_zh)) = true
      · rw [if_pos hany]
        exact hkb
      · rw [if_neg hany]
        by_cases hsim : a.force = false ∧
            findSimilarQuestions hf kb a.topic a.question_zh (3/5) ≠ []
        · rw [if_pos hsim]
          exact hkb
        · rw [if_neg hsim]
          intro p hp
          simp only [pushEntry] at hp
          rcases mem_setTopic hp with h | h
          · rw [h]
            simp only [List.map_append, List.map_cons, List.map_nil]
            rw [List.nodup_append]
            refine ⟨hkb _ (lookupTopic_mem hlk), List.nodup_singleton _, ?_⟩
            intro x hx hx2
            simp only [List.mem_singleton] at hx2
            simp only [List.mem_map] at hx
            obtain ⟨qa, hqa, hxeq⟩ := hx
            apply hany
            rw [List.any_eq_true]
            refine ⟨qa, hqa, ?_⟩
            have : qa.question_hash = hf.qDigest a.question_zh := by
              rw [hxeq, hx2]; rfl
            rw [this, beq_self_eq_true]
          · exact hkb _ h
  | none =>
      simp only [hlk]
      rw [if_neg (by simp)]
      by_cases hsim : a.force = false ∧
          findSimilarQuestions hf
            { kb with topics := kb.topics ++ [(hf.topicId a.topic, ⟨a.topic, a.now, []⟩)] }
            a.topic a.question_zh (3/5) ≠ []
      · rw [if_pos hsim]
        intro p hp
        rcases List.mem_append.mp hp with h | h
        · exact hkb _ h
        · simp only [List.mem_singleton] at h
          rw [h]
          exact List.nodup_nil
      · rw [if_neg hsim]
        intro p hp
        simp only [pushEntry] at hp
        rcases mem_setTopic hp with h | h
        · rw [h]
          simp only [List.map_append, List.map_cons, List.map_nil, List.nil_append]
          exact List.nodup_singleton _
        · rcases List.mem_append.mp h with h' | h'
          · exact hkb _ h'
          · simp only [List.mem_singleton] at h'
            rw [h']
            exact List.nodup_nil

/-- C9: after any sequence of `add_question` calls starting from a fresh
knowledge base, no two records under one topic share a content digest. -/
theorem addQuestion_digest_invariant (hf : HashFns) (created : String) (ops : List AddArgs) :
    hashesNodup (ops.foldl (stepState hf) (initialKB created)) := by
  have pres : ∀ (l : List AddArgs) (kb : KB), hashesNodup kb →
      hashesNodup (l.foldl (stepState hf) kb) := by
    intro l
    induction l with
    | nil => intro kb h; exact h
    | cons a tl ih =>
        intro kb h
        rw [List.foldl_cons]
        exact ih _ (hashesNodup_step hf kb a h)
  refine pres ops _ ?_
  intro p hp
  simp [initialKB] at hp

/-! ### Learning records data model (LearningRecords) -/

/-- A naive `datetime`: a calendar-day number plus an opaque time-of-day
payload.  `date()`-granularity comparison only looks at `day`, and
`timedelta(days=n)` adds `n` to `day` leaving `tod` unchanged. -/
structure DateTime where
  day : Int
  tod : Nat
deriving DecidableEq, Repr

/-- `timestamp + timedelta(days=interval)`. -/
def addDays (d : DateTime) (n : Nat) : DateTime := ⟨d.day + n, d.tod⟩

/-- One learning-session event (the `qa_record` dictionary). -/
structure QARec where
  timestamp : DateTime
  topic : String
  question_zh : String
  question_en : String
  user_answer : String
  correct_answer_zh : String
  correct_answer_en : String
  score : ℚ
  notes : String
  mastery_level : String
deriving DecidableEq, Repr

/-- One review obligation (an element of `records["review_schedule"]`). -/
structure Review where
  review_date : DateTime
  topic : String
  question_zh : String
  question_en : String
  mastery_level : String
  interval_days : Nat
  completed : Bool
deriving DecidableEq, Repr

/-- The tier-keyed interval table of `_schedule_reviews`; any string other
than the three named tiers takes the `poor` branch, as the final `else`
does. -/
def reviewIntervals (mastery : String) : List Nat :=
  if mastery = "excellent" then [1, 3, 7, 15, 30]
  else if mastery = "good" then [1, 2, 5, 10, 20]
  else if mastery = "fair" then [1, 2, 4, 7, 14]
  else [1, 1, 3, 5, 10]

/-- `LearningRecords._schedule_reviews`: one appended batch, one obligation
per interval, in interval-list order. -/
def scheduleReviews (rec : QARec) (schedule : List Review) : List Review :=
  schedule ++ (reviewIntervals rec.mastery_level).map (fun interval =>
    ⟨addDays rec.timestamp interval, rec.topic, rec.question_zh, rec.question_en,
     rec.mastery_level, interval, false⟩)

/-- `LearningRecords.get_pending_reviews`: keep the not-completed
obligations whose due date is on or before the query date, in stored
order. -/
def getPendingReviews (schedule : List Review) (date : DateTime) : List Review :=
  schedule.filter (fun r => !r.completed && decide (r.review_date.day ≤ date.day))

/-! ### C4: review expansion -/

theorem reviewIntervals_cases (m : String) :
    reviewIntervals m = [1, 3, 7, 15, 30] ∨ reviewIntervals m = [1, 2, 5, 10, 20] ∨
    reviewIntervals m = [1, 2, 4, 7, 14] ∨ reviewIntervals m = [1, 1, 3, 5, 10] := by
  unfold reviewIntervals
  split_ifs <;> simp

theorem getD_append_offset {α : Type} (s l : List α) (j : Nat) (d : α) :
    (s ++ l).getD (s.length + j) d = l.getD j d := by
  induction s with
  | nil => simp
  | cons a t ih =>
      have : t.length + 1 + j = (t.length + j) + 1 := by omega
      simp only [List.cons_append, List.length_cons, this, List.getD_cons_succ]
      exact ih

/-- C4: scheduling appends exactly 5 obligations, one per interval of the
tier's list, each due at the event timestamp plus its interval, inheriting
topic, bilingual question text and mastery tier, all `completed = false`,
appended after the existing schedule in interval-list order. -/
theorem scheduleReviews_spec (rec : QARec) (s : List Review) :
    (scheduleReviews rec s).length = s.length + 5 ∧
    (scheduleReviews rec s).take s.length = s ∧
    (∀ j : Fin 5,
      (scheduleReviews rec s).getD (s.length + j.val)
          ⟨⟨0, 0⟩, "", "", "", "", 0, true⟩ =
        ⟨addDays rec.timestamp ((reviewIntervals rec.mastery_level).getD j.val 0),
         rec.topic, rec.question_zh, rec.question_en, rec.mastery_level,
         (reviewIntervals rec.mastery_level).getD j.val 0, false⟩) ∧
    reviewIntervals "excellent" = [1, 3, 7, 15, 30] ∧
    reviewIntervals "good" = [1, 2, 5, 10, 20] ∧
    reviewIntervals "fair" = [1, 2, 4, 7, 14] ∧
    reviewIntervals "poor" = [1, 1, 3, 5, 10] := by
  refine ⟨?_, ?_, ?_, by rfl, by rfl, by rfl, by rfl⟩
  · rw [scheduleReviews, List.length_append, List.length_map]
    rcases reviewIntervals_cases rec.mastery_level with h | h | h | h <;> rw [h] <;> rfl
  · rw [scheduleReviews, List.take_left]
  · intro j
    rw [scheduleReviews, getD_append_offset]
    rcases reviewIntervals_cases rec.mastery_level with h | h | h | h <;> rw [h] <;>
      fin_cases j <;> rfl

/-! ### C6: pending reviews -/

/-- C6: `get_pending_reviews` returns a sublist (stored insertion order,
no re-sorting) holding exactly the not-completed obligations due on or
before the query date, where per-element membership and multiplicity agree
with that filter, and the result only depends on the query date's day
(time of day ignored). -/
theorem getPendingReviews_spec (schedule : List Review) (d : DateTime) :
    List.Sublist (getPendingReviews schedule d) schedule ∧
    (∀ rv : Review, rv ∈ getPendingReviews schedule d ↔
      rv ∈ schedule ∧ rv.completed = false ∧ rv.review_date.day ≤ d.day) ∧
    (∀ rv : Review, (getPendingReviews schedule d).count rv =
      if rv.completed = false ∧ rv.review_date.day ≤ d.day then schedule.count rv else 0) ∧
    (∀ t : Nat, getPendingReviews schedule ⟨d.day, t⟩ = getPendingReviews schedule d) := by
  refine ⟨List.filter_sublist _, ?_, ?_, fun t => rfl⟩
  · intro rv
    rw [getPendingReviews, List.mem_filter]
    simp [Bool.and_eq_true, Bool.not_eq_true', decide_eq_true_eq, and_assoc]
  · intro rv
    by_cases hc : rv.completed = false ∧ rv.review_date.day ≤ d.day
    · rw [if_pos hc, getPendingReviews]
      apply List.count_filter
      simp [hc.1, hc.2]
    · rw [if_neg hc]
      rw [List.count_eq_zero]
      intro hmem
      rw [getPendingReviews, List.mem_filter] at hmem
      apply hc
      have := hmem.2
      simp only [Bool.and_eq_true, Bool.not_eq_true', decide_eq_true_eq] at this
      exact this

/-! ### Statistics aggregator (LearningRecords._update_statistics) -/

/-- One weak-topic entry of the rollup. -/
structure WeakTopic where
  topic : String
  average_score : ℚ
  attempts : Nat
deriving DecidableEq, Repr

/-- The statistics rollup (`records["statistics"]`). -/
structure Stats where
  total_questions : Nat
  correct_answers : Nat
  average_score : ℚ
  weak_topics : List WeakTopic
deriving DecidableEq, Repr

/-- Round to the nearest integer, ties to even — the rounding rule of
Python's builtin `round`. -/
def roundHalfEven (x : ℚ) : ℤ :=
  if Int.fract x < 1/2 then ⌊x⌋
  else if 1/2 < Int.fract x then ⌊x⌋ + 1
  else if ⌊x⌋ % 2 = 0 then ⌊x⌋ else ⌊x⌋ + 1

/-- `round(x, 1)`: round to one decimal place, ties to even. -/
def round1 (x : ℚ) : ℚ := (roundHalfEven (10 * x) : ℚ) / 10

/-- One step of the `topic_scores` accumulation: append the score under an
existing key, or push a fresh `(topic, [score])` pair at the end (Python
dict insertion order). -/
def addScore : List (String × List ℚ) → String → ℚ → List (String × List ℚ)
  | [], t, sc => [(t, [sc])]
  | (k, v) :: rest, t, sc =>
      if k = t then (k, v ++ [sc]) :: rest
      else (k, v) :: addScore rest t sc

/-- The `topic_scores` dict: scores grouped by topic in first-occurrence
order. -/
def topicScores (sessions : List QARec) : List (String × List ℚ) :=
  sessions.foldl (fun acc s => addScore acc s.topic s.score) []

/-- The comparator of `weak_topics.sort(key=lambda x: x["average_score"])`:
ascending rounded mean. -/
def weakRel (a b : WeakTopic) : Prop := a.average_score ≤ b.average_score

instance : DecidableRel weakRel := fun a b =>
  inferInstanceAs (Decidable (a.average_score ≤ b.average_score))

instance : IsTotal WeakTopic weakRel := ⟨fun a b => le_total a.average_score b.average_score⟩

instance : IsTrans WeakTopic weakRel := ⟨fun _ _ _ h1 h2 => le_trans h1 h2⟩

/-- `LearningRecords._update_statistics`: recompute the rollup from the
whole session log; an empty log leaves the stored rollup unchanged
(`if not sessions: return`). -/
def updateStatistics (sessions : List QARec) (old : Stats) : Stats :=
  if sessions = [] then old
  else
    { total_questions := sessions.length
      correct_answers := sessions.countP (fun s => decide (7 ≤ s.score))
      average_score := round1 ((sessions.map QARec.score).sum / (sessions.length : ℚ))
      weak_topics :=
        List.insertionSort weakRel
          ((topicScores sessions).filterMap (fun p =>
            if (p.2.sum / (p.2.length : ℚ)) < 7 then
              some ⟨p.1, round1 (p.2.sum / (p.2.length : ℚ)), p.2.length⟩
            else none)) }

/-! #### Grouping lemmas -/

/-- First-match lookup in the grouped-score association list. -/
def lookupScores : List (String × List ℚ) → String → List ℚ
  | [], _ => []
  | (k, v) :: rest, t => if k = t then v else lookupScores rest t

theorem lookupScores_addScore (acc : List (String × List ℚ)) (t tq : String) (sc : ℚ) :
    lookupScores (addScore acc tq sc) t =
      if tq = t then lookupScores acc t ++ [sc] else lookupScores acc t := by
  induction acc with
  | nil =>
      by_cases h : tq = t
      · rw [if_pos h]
        simp [addScore, lookupScores, h]

      · rw [if_neg h]
        simp [addScore, lookupScores, h]
  | cons p rest ih =>
      obtain ⟨k, v⟩ := p
      rw [addScore]
      by_cases hk : k = tq
      · rw [if_pos hk]
        by_cases ht : tq = t
        · rw [if_pos ht, lookupScores, lookupScores, if_pos (hk.trans ht), if_pos (hk.trans ht)]
        · rw [if_neg ht, lookupScores, lookupScores]
          have : ¬ k = t := fun hc => ht (hk ▸ hc)
          rw [if_neg this, if_neg this]
      · rw [if_neg hk]
        rw [lookupScores]
        by_cases hkt : k = t
        · rw [if_pos hkt]
          have : ¬ tq = t := fun hc => hk (hkt ▸ hc.symm ▸ rfl)
          rw [if_neg this, lookupScores, if_pos hkt]
        · rw [if_neg hkt, ih, lookupScores, if_neg hkt]

theorem lookupScores_topicScores_aux (l : List QARec) (t : String) :
    ∀ acc : List (String × List ℚ),
      lookupScores (l.foldl (fun acc s => addScore acc s.topic s.score) acc) t =
        lookupScores acc t ++
          (l.filter (fun s => decide (s.topic = t))).map QARec.score := by
  induction l with
  | nil => intro acc; simp
  | cons s rest ih =>
      intro acc
      rw [List.foldl_cons, ih, lookupScores_addScore]
      by_cases h : s.topic = t
      · rw [if_pos h]
        rw [List.filter_cons_of_pos (by simp [h]), List.map_cons, List.append_assoc,
          List.singleton_append]
      · rw [if_neg h, List.filter_cons_of_neg (by simp [h])]

/-- The grouped scores of a topic are exactly the scores of that topic's
sessions, in log order. -/
theorem lookupScores_topicScores (sessions : List QARec) (t : String) :
    lookupScores (topicScores sessions) t =
      (sessions.filter (fun s => decide (s.topic = t))).map QARec.score := by
  rw [topicScores, lookupScores_topicScores_aux]
  rfl

theorem keys_addScore (acc : List (String × List ℚ)) (t : String) (sc : ℚ) :
    (addScore acc t sc).map Prod.fst =
      if t ∈ acc.map Prod.fst then acc.map Prod.fst else acc.map Prod.fst ++ [t] := by
  induction acc with
  | nil => simp [addScore]
  | cons p rest ih =>
      obtain ⟨k, v⟩ := p
      rw [addScore]
      by_cases hk : k = t
      · rw [if_pos hk]
        simp [hk]
      · rw [if_neg hk, List.map_cons, List.map_cons, ih]
        by_cases hmem : t ∈ rest.map Prod.fst
        · rw [if_pos hmem, if_pos (List.mem_cons_of_mem _ hmem)]
        · rw [if_neg hmem, if_neg (by
            intro hc
            rcases List.mem_cons.mp hc with h | h
            · exact hk h.symm
            · exact hmem h)]
          rfl

theorem mem_keys_topicScores_aux (l : List QARec) (t : String) :
    ∀ acc : List (String × List ℚ),
      (t ∈ (l.foldl (fun acc s => addScore acc s.topic s.score) acc).map Prod.fst ↔
        t ∈ acc.map Prod.fst ∨ ∃ s ∈ l, s.topic = t) := by
  induction l with
  | nil => intro acc; simp
  | cons s rest ih =>
      intro acc
      rw [List.foldl_cons, ih, keys_addScore]
      by_cases hmem : s.topic ∈ acc.map Prod.fst
      · rw [if_pos hmem]
        constructor
        · rintro (h | ⟨q, hq, hqt⟩)
          · exact Or.inl h
          · exact Or.inr ⟨q, List.mem_cons_of_mem _ hq, hqt⟩
        · rintro (h | ⟨q, hq, hqt⟩)
          · exact Or.inl h
          · rcases List.mem_cons.mp hq with h' | h'
            · refine Or.inl ?_
              rw [← hqt, h']
              exact hmem
            · exact Or.inr ⟨q, h', hqt⟩
      · rw [if_neg hmem, List.mem_append, List.mem_singleton]
        constructor
        · rintro ((h | h) | ⟨q, hq, hqt⟩)
          · exact Or.inl h
          · exact Or.inr ⟨s, List.mem_cons_self _ _, h.symm⟩
          · exact Or.inr ⟨q, List.mem_cons_of_mem _ hq, hqt⟩
        · rintro (h | ⟨q, hq, hqt⟩)
          · exact Or.inl (Or.inl h)
          · rcases List.mem_cons.mp hq with h' | h'
            · refine Or.inl (Or.inr ?_)
              rw [← hqt, h']
            · exact Or.inr ⟨q, h', hqt⟩

/-- A topic has a grouped entry iff some session mentions it. -/
theorem mem_keys_topicScores (sessions : List QARec) (t : String) :
    t ∈ (topicScores sessions).map Prod.fst ↔ ∃ s ∈ sessions, s.topic = t := by
  rw [topicScores, mem_keys_topicScores_aux]
  simp

theorem nodup_keys_topicScores_aux (l : List QARec) :
    ∀ acc : List (String × List ℚ), (acc.map Prod.fst).Nodup →
      ((l.foldl (fun acc s => addScore acc s.topic s.score) acc).map Prod.fst).Nodup := by
  induction l with
  | nil => intro acc h; exact h
  | cons s rest ih =>
      intro acc h
      rw [List.foldl_cons]
      apply ih
      rw [keys_addScore]
      by_cases hmem : s.topic ∈ acc.map Prod.fst
      · rw [if_pos hmem]; exact h
      · rw [if_neg hmem]
        rw [List.nodup_append]
        exact ⟨h, List.nodup_singleton _, by
          intro x hx hx2
          rw [List.mem_singleton] at hx2
          exact hmem (hx2 ▸ hx)⟩

/-- Grouped keys are pairwise distinct. -/
theorem nodup_keys_topicScores (sessions : List QARec) :
    ((topicScores sessions).map Prod.fst).Nodup := by
  rw [topicScores]
  exact nodup_keys_topicScores_aux sessions [] (by simp)

theorem lookup_of_mem_of_nodup :
    ∀ (l : List (String × List ℚ)), (l.map Prod.fst).Nodup →
      ∀ p ∈ l, lookupScores l p.1 = p.2 := by
  intro l
  induction l with
  | nil => intro _ p hp; simp at hp
  | cons q rest ih =>
      intro hnd p hp
      obtain ⟨k, v⟩ := q
      rw [List.map_cons, List.nodup_cons] at hnd
      rcases List.mem_cons.mp hp with h | h
      · rw [h, lookupScores]
        simp
      · rw [lookupScores]
        by_cases hk : k = p.1
        · exfalso
          apply hnd.1
          rw [hk]
          exact List.mem_map.mpr ⟨p, h, rfl⟩
        · rw [if_neg hk]
          exact ih hnd.2 p h

theorem mem_of_mem_keys :
    ∀ (l : List (String × List ℚ)) (t : String), t ∈ l.map Prod.fst →
      ∃ v, (t, v) ∈ l := by
  intro l t h
  rw [List.mem_map] at h
  obtain ⟨p, hp, hpt⟩ := h
  exact ⟨p.2, by rw [← hpt]; exact hp⟩

/-- The topic filter of the weak-topic construction keeps the key. -/
theorem weak_map_topic_sublist (l : List (String × List ℚ)) :
    List.Sublist
      ((l.filterMap (fun p =>
        if (p.2.sum / (p.2.length : ℚ)) < 7 then
          some (⟨p.1, round1 (p.2.sum / (p.2.length : ℚ)), p.2.length⟩ : WeakTopic)
        else none)).map WeakTopic.topic)
      (l.map Prod.fst) := by
  induction l with
  | nil => simp
  | cons p rest ih =>
      rw [List.filterMap_cons]
      by_cases h : (p.2.sum / (p.2.length : ℚ)) < 7
      · rw [if_pos h, List.map_cons, List.map_cons]
        exact List.Sublist.cons₂ _ ih
      · rw [if_neg h, List.map_cons]
        exact List.Sublist.cons _ ih

/-- C7: on a non-empty event log the recomputed rollup has
total = event count, acceptable count = events scoring at least 7,
average = rounded mean of all scores, and weak topics holding exactly the
topics whose per-topic mean is below 7, once each, with rounded mean and
attempt count, sorted ascending by (rounded) mean. -/
theorem updateStatistics_spec (sessions : List QARec) (old : Stats) (h : sessions ≠ []) :
    (updateStatistics sessions old).total_questions = sessions.length ∧
    (updateStatistics sessions old).correct_answers =
      (sessions.filter (fun s => decide (7 ≤ s.score))).length ∧
    (updateStatistics sessions old).average_score =
      round1 ((sessions.map QARec.score).sum / (sessions.length : ℚ)) ∧
    (∀ t : String,
      (∃ w ∈ (updateStatistics sessions old).weak_topics, w.topic = t) ↔
        ((∃ s ∈ sessions, s.topic = t) ∧
          ((sessions.filter (fun s => decide (s.topic = t))).map QARec.score).sum /
            ((sessions.filter (fun s => decide (s.topic = t))).length : ℚ) < 7)) ∧
    (∀ w ∈ (updateStatistics sessions old).weak_topics,
      w.average_score =
        round1 (((sessions.filter (fun s => decide (s.topic = w.topic))).map QARec.score).sum /
          ((sessions.filter (fun s => decide (s.topic = w.topic))).length : ℚ)) ∧
      w.attempts = (sessions.filter (fun s => decide (s.topic = w.topic))).length) ∧
    (updateStatistics sessions old).weak_topics.Pairwise
      (fun a b => a.average_score ≤ b.average_score) ∧
    ((updateStatistics sessions old).weak_topics.map WeakTopic.topic).Nodup := by
  unfold updateStatistics
  rw [if_neg h]
  have hperm := List.perm_insertionSort weakRel
    ((topicScores sessions).filterMap (fun p =>
      if (p.2.sum / (p.2.length : ℚ)) < 7 then
        some ⟨p.1, round1 (p.2.sum / (p.2.length : ℚ)), p.2.length⟩
      else none))
  refine ⟨rfl, List.countP_eq_length_filter _ _, rfl, ?_, ?_, ?_, ?_⟩
  · intro t
    constructor
    · rintro ⟨w, hw, hwt⟩
      have hw2 := hperm.subset hw
      rw [List.mem_filterMap] at hw2
      obtain ⟨p, hp, hfp⟩ := hw2
      split_ifs at hfp with hlt
      · rw [Option.some_inj] at hfp
        have htop : p.1 = t := by rw [← hwt, ← hfp]
        have hscores : p.2 = (sessions.filter (fun s => decide (s.topic = t))).map QARec.score := by
          rw [← lookupScores_topicScores sessions t, ← htop]
          exact (lookup_of_mem_of_nodup _ (nodup_keys_topicScores sessions) p hp).symm
        constructor
        · rw [← mem_keys_topicScores, ← htop]
          exact List.mem_map.mpr ⟨p, hp, rfl⟩
        · rw [hscores] at hlt
          rwa [List.length_map] at hlt
    · rintro ⟨⟨s0, hs0, hs0t⟩, hmean⟩
      have hkey : t ∈ (topicScores sessions).map Prod.fst :=
        (mem_keys_topicScores sessions t).mpr ⟨s0, hs0, hs0t⟩
      obtain ⟨v, hv⟩ := mem_of_mem_keys _ _ hkey
      have hveq : v = (sessions.filter (fun s => decide (s.topic = t))).map QARec.score := by
        rw [← lookupScores_topicScores sessions t]
        exact (lookup_of_mem_of_nodup _ (nodup_keys_topicScores sessions) (t, v) hv).symm
      have hlt : (v.sum / (v.length : ℚ)) < 7 := by
        rw [hveq, List.length_map]
        exact hmean
      refine ⟨⟨t, round1 (v.sum / (v.length : ℚ)), v.length⟩, ?_, rfl⟩
      rw [hperm.mem_iff, List.mem_filterMap]
      exact ⟨(t, v), hv, by rw [if_pos hlt]⟩
  · intro w hw
    have hw2 := hperm.subset hw
    rw [List.mem_filterMap] at hw2
    obtain ⟨p, hp, hfp⟩ := hw2
    split_ifs at hfp with hlt
    · rw [Option.some_inj] at hfp
      subst hfp
      dsimp only
      have hscores :
          p.2 = (sessions.filter (fun s => decide (s.topic = p.1))).map QARec.score := by
        rw [← lookupScores_topicScores sessions p.1]
        exact (lookup_of_mem_of_nodup _ (nodup_keys_topicScores sessions) p hp).symm
      constructor
      · rw [hscores, List.length_map]
      · rw [hscores, List.length_map]
  · exact List.sorted_insertionSort weakRel _
  · have hsub := weak_map_topic_sublist (topicScores sessions)
    have hnd := hsub.nodup (nodup_keys_topicScores sessions)
    exact (hperm.map WeakTopic.topic).symm.nodup hnd

/-- The spec's concrete statistics example: scores [9, 3, 3] on topics
A, B, B. -/
def wSessions : List QARec :=
  [⟨⟨0, 0⟩, "A", "q", "q", "u", "a", "a", 9, "", "excellent"⟩,
   ⟨⟨0, 0⟩, "B", "q", "q", "u", "a", "a", 3, "", "poor"⟩,
   ⟨⟨0, 0⟩, "B", "q", "q", "u", "a", "a", 3, "", "poor"⟩]

/-- An arbitrary prior rollup for the witness. -/
def wOld : Stats := ⟨0, 0, 0, []⟩

/-- Witness for C7: the [9, 3, 3] / [A, B, B] example recomputes to
average 5.0, acceptable count 1 and weak topics [{B, 3.0, 2}]. -/
theorem updateStatistics_spec_witness :
    wSessions ≠ [] ∧
    (updateStatistics wSessions wOld).total_questions = wSessions.length ∧
    (updateStatistics wSessions wOld).correct_answers =
      (wSessions.filter (fun s => decide (7 ≤ s.score))).length ∧
    (updateStatistics wSessions wOld).average_score =
      round1 ((wSessions.map QARec.score).sum / (wSessions.length : ℚ)) ∧
    updateStatistics wSessions wOld = ⟨3, 1, 5, [⟨"B", 3, 2⟩]⟩ := by
  have hne : wSessions ≠ [] := by simp [wSessions]
  refine ⟨hne, (updateStatistics_spec wSessions wOld hne).1,
    (updateStatistics_spec wSessions wOld hne).2.1,
    (updateStatistics_spec wSessions wOld hne).2.2.1, ?_⟩
  have h1 : topicScores wSessions = [("A", [9]), ("B", [3, 3])] := by
    simp [topicScores, wSessions, addScore]
  rw [updateStatistics, if_neg hne, h1, Stats.mk.injEq]
  refine ⟨by simp [wSessions], ?_, ?_, ?_⟩
  · simp [wSessions, List.countP_cons]
    norm_num
  · have hsum : (wSessions.map QARec.score).sum = 15 := by
      simp [wSessions]
      norm_num
    rw [hsum]
    show round1 ((15 : ℚ) / 3) = 5
    norm_num [round1, roundHalfEven, Int.fract]
  · have hA : ¬ ((([(9 : ℚ)]).sum / ((([(9 : ℚ)]).length : Nat) : ℚ)) < 7) := by norm_num
    have hB : ((([(3 : ℚ), 3]).sum / ((([(3 : ℚ), 3]).length : Nat) : ℚ)) < 7) := by norm_num
    have h3 : round1 (3 : ℚ) = 3 := by norm_num [round1, roundHalfEven, Int.fract]
    simp only [List.filterMap_cons, List.filterMap_nil]
    rw [if_neg hA, if_pos hB]
    simp [List.insertionSort, List.orderedInsert, h3]

/-! ### C2: similar-question detection

Python's `list.sort` is stable and `reverse=True` preserves the relative
order of equal keys, so the returned matches are sorted by descending
similarity with ties in the records' insertion order.  Stability of the
model sort is proved as: filtering the output at any fixed similarity
value gives the same list as filtering the input. -/

theorem filter_orderedInsert (x : SimilarEntry) (q : ℚ) (l : List SimilarEntry) :
    (List.orderedInsert simRel x l).filter (fun e => decide (e.similarity = q)) =
      if x.similarity = q then x :: l.filter (fun e => decide (e.similarity = q))
      else l.filter (fun e => decide (e.similarity = q)) := by
  induction l with
  | nil =>
      by_cases hx : x.similarity = q
      · rw [if_pos hx]
        simp [List.orderedInsert, hx]
      · rw [if_neg hx]
        simp [List.orderedInsert, hx]
  | cons b t ih =>
      rw [show List.orderedInsert simRel x (b :: t) =
            if simRel x b then x :: b :: t else b :: List.orderedInsert simRel x t from rfl]
      by_cases hr : simRel x b
      · rw [if_pos hr]
        by_cases hx : x.similarity = q
        · rw [if_pos hx, List.filter_cons_of_pos (by simp [hx])]
        · rw [if_neg hx, List.filter_cons_of_neg (by simp [hx])]
      · rw [if_neg hr]
        have hlt : x.similarity < b.similarity := not_le.mp hr
        by_cases hx : x.similarity = q
        · rw [if_pos hx]
          have hb : ¬ (b.similarity = q) := fun hc =>
            absurd (hc.trans hx.symm) (ne_of_gt hlt)
          rw [List.filter_cons_of_neg (by simp [hb]), ih, if_pos hx,
            List.filter_cons_of_neg (by simp [hb])]
        · rw [if_neg hx]
          by_cases hb : b.similarity = q
          · rw [List.filter_cons_of_pos (by simp [hb]), ih, if_neg hx,
              List.filter_cons_of_pos (by simp [hb])]
          · rw [List.filter_cons_of_neg (by simp [hb]), ih, if_neg hx,
              List.filter_cons_of_neg (by simp [hb])]

theorem filter_insertionSort_sim (q : ℚ) (l : List SimilarEntry) :
    (List.insertionSort simRel l).filter (fun e => decide (e.similarity = q)) =
      l.filter (fun e => decide (e.similarity = q)) := by
  induction l with
  | nil => rfl
  | cons a t ih =>
      rw [show List.insertionSort simRel (a :: t) =
            List.orderedInsert simRel a (List.insertionSort simRel t) from rfl,
        filter_orderedInsert, ih]
      by_cases hx : a.similarity = q
      · rw [if_pos hx, List.filter_cons_of_pos (by simp [hx])]
      · rw [if_neg hx, List.filter_cons_of_neg (by simp [hx])]

theorem findSimilar_eq (hf : HashFns) (kb : KB) (topic qzh : String) (threshold : ℚ)
    (b : TopicData) (hb : lookupTopic kb.topics (hf.topicId topic) = some b) :
    findSimilarQuestions hf kb topic qzh threshold =
      List.insertionSort simRel
        ((b.questions.map (fun qa =>
            (⟨qa.question_zh,
              calculateSimilarity (extractKeywords qzh) (extractKeywords qa.question_zh),
              qa.question_hash⟩ : SimilarEntry))).filter
          (fun e => decide (threshold ≤ e.similarity))) := by
  simp only [findSimilarQuestions, hb]

/-- C2: with `force=false`, no digest match, and at least one stored
question at or above similarity 3/5 (the inclusive 0.6 threshold),
`add_question` returns `SIMILAR_FOUND` without mutating state, and the
payload is a permutation of exactly the at-or-above-threshold matches,
sorted by descending similarity, with ties kept in the records' insertion
order (the filter at any fixed similarity value is preserved). -/
theorem addQuestion_similar_found
    (hf : HashFns) (kb : KB) (topic qzh qen azh aen diff : String)
    (tags : List String) (now : String) (b : TopicData)
    (hb : lookupTopic kb.topics (hf.topicId topic) = some b)
    (hnodup : ∀ qa ∈ b.questions, qa.question_hash ≠ hf.qDigest qzh)
    (hsim : ∃ qa ∈ b.questions,
      3/5 ≤ calculateSimilarity (extractKeywords qzh) (extractKeywords qa.question_zh)) :
    (addQuestion hf kb topic qzh qen azh aen diff tags now false).status = "SIMILAR_FOUND" ∧
    (addQuestion hf kb topic qzh qen azh aen diff tags now false).state = kb ∧
    (∃ out : List SimilarEntry,
      (addQuestion hf kb topic qzh qen azh aen diff tags now false).similar = some out ∧
      out.Perm ((b.questions.map (fun qa =>
          (⟨qa.question_zh,
            calculateSimilarity (extractKeywords qzh) (extractKeywords qa.question_zh),
            qa.question_hash⟩ : SimilarEntry))).filter
        (fun e => decide (3/5 ≤ e.similarity))) ∧
      out.Pairwise (fun a c => c.similarity ≤ a.similarity) ∧
      (∀ q : ℚ, out.filter (fun e => decide (e.similarity = q)) =
        ((b.questions.map (fun qa =>
            (⟨qa.question_zh,
              calculateSimilarity (extractKeywords qzh) (extractKeywords qa.question_zh),
              qa.question_hash⟩ : SimilarEntry))).filter
          (fun e => decide (3/5 ≤ e.similarity))).filter
            (fun e => decide (e.similarity = q)))) := by
  have hany : ¬ ((b.questions.any (fun qa => qa.question_hash == hf.qDigest qzh)) = true) := by
    rw [List.any_eq_true]
    rintro ⟨qa, hqa, hq⟩
    exact hnodup qa hqa (by rwa [beq_iff_eq] at hq)
  have hmem : ∃ e ∈ (b.questions.map (fun qa =>
      (⟨qa.question_zh,
        calculateSimilarity (extractKeywords qzh) (extractKeywords qa.question_zh),
        qa.question_hash⟩ : SimilarEntry))).filter
        (fun e => decide (3/5 ≤ e.similarity)), True := by
    obtain ⟨qa, hqa, hge⟩ := hsim
    refine ⟨_, List.mem_filter.mpr ⟨List.mem_map.mpr ⟨qa, hqa, rfl⟩, by simpa using hge⟩, trivial⟩
  obtain ⟨e0, he0, -⟩ := hmem
  have hFne : (b.questions.map (fun qa =>
      (⟨qa.question_zh,
        calculateSimilarity (extractKeywords qzh) (extractKeywords qa.question_zh),
        qa.question_hash⟩ : SimilarEntry))).filter
        (fun e => decide (3/5 ≤ e.similarity)) ≠ [] :=
    List.ne_nil_of_mem he0
  have hfind := findSimilar_eq hf kb topic qzh (3/5) b hb
  have hperm := List.perm_insertionSort simRel
    ((b.questions.map (fun qa =>
        (⟨qa.question_zh,
          calculateSimilarity (extractKeywords qzh) (extractKeywords qa.question_zh),
          qa.question_hash⟩ : SimilarEntry))).filter
      (fun e => decide (3/5 ≤ e.similarity)))
  have hne : findSimilarQuestions hf kb topic qzh (3/5) ≠ [] := by
    rw [hfind]
    intro hcontra
    have h2 := hperm.symm
    rw [hcontra] at h2
    exact hFne h2.eq_nil
  have hres : addQuestion hf kb topic qzh qen azh aen diff tags now false =
      ⟨"SIMILAR_FOUND", some (findSimilarQuestions hf kb topic qzh (3/5)), kb⟩ := by
    simp only [addQuestion, hb]
    rw [if_neg hany, if_pos (And.intro (by simp) hne)]
  rw [hres]
  refine ⟨rfl, rfl, findSimilarQuestions hf kb topic qzh (3/5), rfl, ?_, ?_, ?_⟩
  · rw [hfind]
    exact hperm
  · rw [hfind]
    exact (List.sorted_insertionSort simRel _).imp (fun h => h)
  · intro q
    rw [hfind]
    exact filter_insertionSort_sim q _

/-- Witness for C2: against the stored question 机器学习, submitting
机器学习吗 (Jaccard similarity 9/11 ≥ 3/5, different digest) without
`force` yields `SIMILAR_FOUND` and leaves the state unchanged. -/
theorem addQuestion_similar_found_witness :
    (lookupTopic wKB.topics (wHF.topicId "主题") = some ⟨"主题", "t0", [wQA]⟩ ∧
      (∀ qa ∈ [wQA], qa.question_hash ≠ wHF.qDigest "机器学习吗") ∧
      (∃ qa ∈ [wQA],
        3/5 ≤ calculateSimilarity (extractKeywords "机器学习吗")
          (extractKeywords qa.question_zh))) ∧
    ((addQuestion wHF wKB "主题" "机器学习吗" "e" "az" "ae" "medium" [] "t1" false).status =
        "SIMILAR_FOUND" ∧
      (addQuestion wHF wKB "主题" "机器学习吗" "e" "az" "ae" "medium" [] "t1" false).state = wKB ∧
      (∃ out : List SimilarEntry,
        (addQuestion wHF wKB "主题" "机器学习吗" "e" "az" "ae" "medium" [] "t1" false).similar =
          some out ∧
        out.Perm (([wQA].map (fun qa =>
            (⟨qa.question_zh,
              calculateSimilarity (extractKeywords "机器学习吗") (extractKeywords qa.question_zh),
              qa.question_hash⟩ : SimilarEntry))).filter
          (fun e => decide (3/5 ≤ e.similarity))) ∧
        out.Pairwise (fun a c => c.similarity ≤ a.similarity) ∧
        (∀ q : ℚ, out.filter (fun e => decide (e.similarity = q)) =
          (([wQA].map (fun qa =>
              (⟨qa.question_zh,
                calculateSimilarity (extractKeywords "机器学习吗") (extractKeywords qa.question_zh),
                qa.question_hash⟩ : SimilarEntry))).filter
            (fun e => decide (3/5 ≤ e.similarity))).filter
              (fun e => decide (e.similarity = q))))) := by
  have hv : calculateSimilarity (extractKeywords "机器学习吗") (extractKeywords "机器学习") =
      9/11 := by
    have h1 : ¬ (extractKeywords "机器学习吗" = ∅ ∨ extractKeywords "机器学习" = ∅) := by decide
    have h2 : ¬ (extractKeywords "机器学习吗" ∪ extractKeywords "机器学习" = ∅) := by decide
    have hi : (extractKeywords "机器学习吗" ∩ extractKeywords "机器学习").card = 9 := by decide
    have hu : (extractKeywords "机器学习吗" ∪ extractKeywords "机器学习").card = 11 := by decide
    rw [calculateSimilarity, if_neg h1, if_neg h2, hi, hu]
    norm_num
  have hsim : ∃ qa ∈ [wQA],
      (3 : ℚ)/5 ≤ calculateSimilarity (extractKeywords "机器学习吗")
        (extractKeywords qa.question_zh) := by
    refine ⟨wQA, by decide, ?_⟩
    show (3 : ℚ)/5 ≤ calculateSimilarity (extractKeywords "机器学习吗") (extractKeywords "机器学习")
    rw [hv]
    norm_num
  exact ⟨⟨by decide, by decide, hsim⟩,
    addQuestion_similar_found wHF wKB "主题" "机器学习吗" "e" "az" "ae" "medium" [] "t1"
      ⟨"主题", "t0", [wQA]⟩ (by decide) (by decide) hsim⟩

/-! ### C3: what the keyword extractor emits

The spec reads `extract_keywords` as dropping stop-words from the
character sequence before any windows are formed.  The code applies the
stop-word filter to the 1-gram loop only; the 2- and 3-gram loops run over
the full ideographic character list.  `specExtractKeywords` is the
spec-side reading, used to exhibit the divergence. -/

/-- The spec's reading of the extractor: stop-word characters removed from
the filtered sequence before ANY window is formed. -/
def specExtractKeywords (text : String) : Finset String :=
  ((gram1 (cjkChars text)) ++
    gram2 ((cjkChars text).filter (fun c => !(stopwords.contains (String.mk [c])))) ++
    gram3 ((cjkChars text).filter (fun c => !(stopwords.contains (String.mk [c]))))).toFinset

theorem gram2_mem_of_window :
    ∀ (pre : List Char) (a b : Char) (post : List Char),
      String.mk [a, b] ∈ gram2 (pre ++ a :: b :: post)
  | [], a, b, post => by
      rw [List.nil_append,
        show gram2 (a :: b :: post) = String.mk [a, b] :: gram2 (b :: post) from rfl]
      exact List.mem_cons_self _ _
  | p :: pre, a, b, post => by
      rw [List.cons_append]
      cases hpre : pre ++ a :: b :: post with
      | nil => exact absurd hpre (by simp)
      | cons c rest =>
          rw [show gram2 (p :: c :: rest) = String.mk [p, c] :: gram2 (c :: rest) from rfl]
          refine List.mem_cons_of_mem _ ?_
          rw [← hpre]
          exact gram2_mem_of_window pre a b post

theorem gram3_mem_of_window :
    ∀ (pre : List Char) (a b c : Char) (post : List Char),
      String.mk [a, b, c] ∈ gram3 (pre ++ a :: b :: c :: post)
  | [], a, b, c, post => by
      rw [List.nil_append,
        show gram3 (a :: b :: c :: post) = String.mk [a, b, c] :: gram3 (b :: c :: post) from rfl]
      exact List.mem_cons_self _ _
  | p :: pre, a, b, c, post => by
      rw [List.cons_append]
      cases hpre : pre ++ a :: b :: c :: post with
      | nil => exact absurd hpre (by simp)
      | cons x rest =>
          cases hrest : rest with
          | nil =>
              exfalso
              have : (pre ++ a :: b :: c :: post).length = 1 := by rw [hpre, hrest]; rfl
              simp [List.length_append] at this
              omega
          | cons y rest2 =>
              rw [show gram3 (p :: x :: y :: rest2) =
                    String.mk [p, x, y] :: gram3 (x :: y :: rest2) from rfl]
              refine List.mem_cons_of_mem _ ?_
              rw [← hrest, ← hpre]
              exact gram3_mem_of_window pre a b c post

theorem mem_gram2_inv :
    ∀ (chars : List Char) (w : String), w ∈ gram2 chars →
      ∃ pre a b post, chars = pre ++ a :: b :: post ∧ w = String.mk [a, b]
  | [], w => by simp [gram2]
  | [x], w => by simp [gram2]
  | a :: b :: rest, w => by
      intro hw
      rw [show gram2 (a :: b :: rest) = String.mk [a, b] :: gram2 (b :: rest) from rfl,
        List.mem_cons] at hw
      rcases hw with h | h
      · exact ⟨[], a, b, rest, rfl, h⟩
      · obtain ⟨pre, x, y, post, hchars, hww⟩ := mem_gram2_inv (b :: rest) w h
        exact ⟨a :: pre, x, y, post, by rw [List.cons_append, ← hchars], hww⟩

theorem mem_gram3_inv :
    ∀ (chars : List Char) (w : String), w ∈ gram3 chars →
      ∃ pre a b c post, chars = pre ++ a :: b :: c :: post ∧ w = String.mk [a, b, c]
  | [], w => by simp [gram3]
  | [x], w => by simp [gram3]
  | [x, y], w => by simp [gram3]
  | a :: b :: c :: rest, w => by
      intro hw
      rw [show gram3 (a :: b :: c :: rest) = String.mk [a, b, c] :: gram3 (b :: c :: rest) from rfl,
        List.mem_cons] at hw
      rcases hw with h | h
      · exact ⟨[], a, b, c, rest, rfl, h⟩
      · obtain ⟨pre, x, y, z, post, hchars, hww⟩ := mem_gram3_inv (b :: c :: rest) w h
        exact ⟨a :: pre, x, y, z, post, by rw [List.cons_append, ← hchars], hww⟩

theorem contains_eq_false_iff (l : List String) (a : String) :
    l.contains a = false ↔ a ∉ l := by
  rw [← Bool.not_eq_true, show (l.contains a = true) ↔ a ∈ l from List.elem_iff]

theorem mem_gram1_iff (chars : List Char) (w : String) :
    w ∈ gram1 chars ↔ ∃ c, c ∈ chars ∧ w = String.mk [c] ∧ String.mk [c] ∉ stopwords := by
  rw [gram1, List.mem_map]
  constructor
  · rintro ⟨c, hc, hw⟩
    rw [List.mem_filter] at hc
    refine ⟨c, hc.1, hw.symm, ?_⟩
    have h2 := hc.2
    rw [Bool.not_eq_true'] at h2
    exact (contains_eq_false_iff _ _).mp h2
  · rintro ⟨c, hc, hw, hstop⟩
    refine ⟨c, List.mem_filter.mpr ⟨hc, ?_⟩, hw.symm⟩
    rw [Bool.not_eq_true']
    exact (contains_eq_false_iff _ _).mpr hstop

/-- C3 (amended): membership in the extractor's output.  A string is a
keyword iff it is a contiguous window of the ideographic character
sequence and either has length 2 or 3, or has length 1 and is not a
stop-word.  (The stop-word filter applies to single-character windows
only.) -/
theorem extractKeywords_windows (text : String) (w : String) :
    w ∈ extractKeywords text ↔
      ((∃ pre post, cjkChars text = pre ++ w.toList ++ post) ∧
        (w.toList.length = 2 ∨ w.toList.length = 3 ∨
          (w.toList.length = 1 ∧ w ∉ stopwords))) := by
  rw [extractKeywords, List.mem_toFinset, List.mem_append, List.mem_append]
  constructor
  · rintro ((h | h) | h)
    · obtain ⟨c, hc, hw, hstop⟩ := (mem_gram1_iff _ _).mp h
      obtain ⟨s, t, hst⟩ := List.append_of_mem hc
      subst hw
      exact ⟨⟨s, t, by rw [hst]; simp⟩, Or.inr (Or.inr ⟨rfl, hstop⟩)⟩
    · obtain ⟨pre, a, b, post, hchars, hw⟩ := mem_gram2_inv _ _ h
      subst hw
      exact ⟨⟨pre, post, by rw [hchars]; simp⟩, Or.inl rfl⟩
    · obtain ⟨pre, a, b, c, post, hchars, hw⟩ := mem_gram3_inv _ _ h
      subst hw
      exact ⟨⟨pre, post, by rw [hchars]; simp⟩, Or.inr (Or.inl rfl)⟩
  · rintro ⟨⟨pre, post, hwin⟩, h2 | h3 | ⟨h1, hstop⟩⟩
    · obtain ⟨a, b, hab⟩ := List.length_eq_two.mp h2
      have hw : w = String.mk [a, b] := by
        cases w
        simp only [String.toList] at hab
        rw [hab]
      refine Or.inl (Or.inr ?_)
      rw [hw]
      rw [hab] at hwin
      rw [hwin, List.append_assoc]
      exact gram2_mem_of_window pre a b post
    · obtain ⟨a, b, c, habc⟩ := List.length_eq_three.mp h3
      have hw : w = String.mk [a, b, c] := by
        cases w
        simp only [String.toList] at habc
        rw [habc]
      refine Or.inr ?_
      rw [hw]
      rw [habc] at hwin
      rw [hwin, List.append_assoc]
      exact gram3_mem_of_window pre a b c post
    · obtain ⟨c, hc⟩ := List.length_eq_one.mp h1
      have hw : w = String.mk [c] := by
        cases w
        simp only [String.toList] at hc
        rw [hc]
      refine Or.inl (Or.inl ?_)
      rw [hw]
      rw [mem_gram1_iff]
      refine ⟨c, ?_, rfl, by rw [← hw]; exact hstop⟩
      rw [hwin, hc]
      simp

/-- C3 counterexample: on input 的的 (two stop-word characters) the
extractor emits the 2-gram 的的, which is made of stop-word characters;
the spec-side stop-words-removed-first reading would return the empty
set.  So stop-words are NOT removed before windows are formed. -/
theorem extractKeywords_stopword_counterexample :
    extractKeywords "的的" = {"的的"} ∧ "的" ∈ stopwords ∧
    specExtractKeywords "的的" = ∅ ∧
    ¬ extractKeywords "的的" = specExtractKeywords "的的" := by decide

/-! ### C10: non-ideographic text -/

/-- C10: a question text with no ideographic character extracts the empty
keyword set, scores similarity 0 against every keyword set, and can never
make `add_question` return `SIMILAR_FOUND` — only the digest check can
fire for such text. -/
theorem nonIdeographic_no_similar (text : String)
    (h : ∀ c ∈ text.toList, isCJK c = false) :
    extractKeywords text = ∅ ∧
    (∀ ks : Finset String, calculateSimilarity (extractKeywords text) ks = 0) ∧
    (∀ ks : Finset String, calculateSimilarity ks (extractKeywords text) = 0) ∧
    (∀ (hf : HashFns) (kb : KB) (topic qen azh aen diff : String) (tags : List String)
      (now : String) (force : Bool),
      (addQuestion hf kb topic text qen azh aen diff tags now force).status ≠
        "SIMILAR_FOUND") := by
  have hchars : cjkChars text = [] := by
    rw [cjkChars, List.filter_eq_nil_iff]
    intro c hc
    rw [h c hc]
    simp
  have hext : extractKeywords text = ∅ := by
    rw [extractKeywords, hchars]
    rfl
  have hsim0 : ∀ ks : Finset String, calculateSimilarity (extractKeywords text) ks = 0 := by
    intro ks
    rw [hext, calculateSimilarity, if_pos (Or.inl rfl)]
  have hsim0r : ∀ ks : Finset String, calculateSimilarity ks (extractKeywords text) = 0 := by
    intro ks
    rw [hext, calculateSimilarity, if_pos (Or.inr rfl)]
  refine ⟨hext, hsim0, hsim0r, ?_⟩
  intro hf kb topic qen azh aen diff tags now force
  have hfind : ∀ kb' : KB, findSimilarQuestions hf kb' topic text (3/5) = [] := by
    intro kb'
    cases hlk : lookupTopic kb'.topics (hf.topicId topic) with
    | none => simp only [findSimilarQuestions, hlk]
    | some td =>
        simp only [findSimilarQuestions, hlk]
        have hfil : (td.questions.map (fun qa =>
            ({ question := qa.question_zh,
               similarity := calculateSimilarity (extractKeywords text)
                 (extractKeywords qa.question_zh),
               hash := qa.question_hash } : SimilarEntry))).filter
            (fun e => decide ((3:ℚ)/5 ≤ e.similarity)) = [] := by
          rw [List.filter_eq_nil_iff]
          intro e he
          rw [List.mem_map] at he
          obtain ⟨qa, hqa, hqe⟩ := he
          have : e.similarity = 0 := by
            rw [← hqe]
            exact hsim0 _
          rw [decide_eq_true_eq, this]
          norm_num
        rw [hfil]
        rfl
  simp only [addQuestion]
  cases hlk : lookupTopic kb.topics (hf.topicId topic) with
  | some t =>
      simp only [hlk]
      split_ifs with h1 h2
      · simp
      · exact absurd (hfind kb) h2.2
      · simp
  | none =>
      simp only [hlk]
      split_ifs with h1 h2
      · simp
      · exact absurd (hfind _) h2.2
      · simp

/-- Witness for C10: the Latin-script question text has no ideographic
characters, so its keyword set is empty, its similarity against the
stored 机器学习 keyword set is 0, and adding it cannot report
`SIMILAR_FOUND`. -/
theorem nonIdeographic_no_similar_witness :
    (∀ c ∈ ("what is gil?").toList, isCJK c = false) ∧
    extractKeywords "what is gil?" = ∅ ∧
    calculateSimilarity (extractKeywords "what is gil?") (extractKeywords "机器学习") = 0 ∧
    (addQuestion wHF wKB "主题" "what is gil?" "e" "az" "ae" "medium" [] "t1" false).status ≠
      "SIMILAR_FOUND" := by
  have H := nonIdeographic_no_similar "what is gil?" (by decide)
  exact ⟨by decide, H.1, H.2.1 _, H.2.2.2 wHF wKB "主题" "e" "az" "ae" "medium" [] "t1" false⟩

end AISkills
